import Mathlib

/-!
Verification development for the e-commerce RFM dashboard (`src/app.py`).

The Python program loads a sales ledger, cleans it, computes per-customer
Recency/Frequency/Monetary quartile scores with `pd.qcut`, maps the
3-digit RFM code to a named segment, and serves filtered aggregates.
This file gives a shallow embedding of the data-handling core:
ledger rows, the cleaning step (lines 32-42), the load fallback
(lines 24-75), the RFM scoring pipeline (lines 80-92) including a
faithful model of `pd.qcut(.., 4, labels=.., duplicates='drop')` and of
`Series.rank(method='first')`, the segment table (lines 95-101), and
the filter plus aggregation callback (lines 329-382).
-/

set_option maxRecDepth 4000

attribute [local semireducible] Rat.add Rat.sub Rat.mul Rat.inv Rat.ofScientific

namespace RFMDash

/-- Code-point comparison of characters, the primitive of the lexicographic
string order pandas uses when sorting group keys. -/
def charLtB (a b : Char) : Bool := decide (a.toNat < b.toNat)

/-- Lexicographic strict comparison of character lists by code point. -/
def strLtAux : List Char → List Char → Bool
  | _, [] => false
  | [], _ :: _ => true
  | a :: as, b :: bs =>
      if charLtB a b then true else if charLtB b a then false else strLtAux as bs

/-- Lexicographic strict order on strings (the order of Python string
comparison, hence of pandas group-key sorting). -/
def strLtP (a b : String) : Prop := strLtAux a.data b.data = true

/-- The non-strict companion of `strLtP`. -/
def strLeP (a b : String) : Prop := strLtAux b.data a.data = false

instance : DecidableRel strLtP := fun a b =>
  inferInstanceAs (Decidable (strLtAux a.data b.data = true))

instance : DecidableRel strLeP := fun a b =>
  inferInstanceAs (Decidable (strLtAux b.data a.data = false))

theorem charLtB_asymm {a b : Char} (h : charLtB a b = true) : charLtB b a = false := by
  simp only [charLtB, decide_eq_true_eq] at h
  simp only [charLtB, decide_eq_false_iff_not]
  omega

theorem charLtB_antisymm {a b : Char} (h1 : charLtB a b = false)
    (h2 : charLtB b a = false) : a = b := by
  simp only [charLtB, decide_eq_false_iff_not] at h1 h2
  have hv : a.toNat = b.toNat := by omega
  exact Char.eq_of_val_eq (UInt32.ext hv)

theorem charLtB_trans {a b c : Char} (h1 : charLtB a b = true)
    (h2 : charLtB b c = true) : charLtB a c = true := by
  simp only [charLtB, decide_eq_true_eq] at h1 h2 ⊢
  omega

theorem strLtAux_asymm : ∀ x y : List Char, strLtAux x y = true → strLtAux y x = false
  | _, [], h => by simp [strLtAux] at h
  | [], _ :: _, _ => by simp [strLtAux]
  | a :: as, b :: bs, h => by
      simp only [strLtAux] at h ⊢
      by_cases hab : charLtB a b = true
      · simp [hab, charLtB_asymm hab]
      · simp only [Bool.not_eq_true] at hab
        by_cases hba : charLtB b a = true
        · simp [hab, hba] at h
        · simp only [Bool.not_eq_true] at hba
          simp only [hab, hba, if_false] at h ⊢
          exact strLtAux_asymm as bs h

theorem strLtAux_antisymm : ∀ x y : List Char,
    strLtAux x y = false → strLtAux y x = false → x = y
  | [], [], _, _ => rfl
  | [], _ :: _, h, _ => by simp [strLtAux] at h
  | _ :: _, [], _, h => by simp [strLtAux] at h
  | a :: as, b :: bs, h1, h2 => by
      simp only [strLtAux] at h1 h2
      by_cases hab : charLtB a b = true
      · simp [hab] at h1
      · simp only [Bool.not_eq_true] at hab
        by_cases hba : charLtB b a = true
        · simp [hba] at h2
        · simp only [Bool.not_eq_true] at hba
          simp only [hab, hba, if_false] at h1 h2
          have := strLtAux_antisymm as bs h1 h2
          rw [charLtB_antisymm hab hba, this]

theorem strLtAux_trans : ∀ x y z : List Char,
    strLtAux x y = true → strLtAux y z = true → strLtAux x z = true
  | _, _, [], _, h2 => by simp [strLtAux] at h2
  | [], _ :: _, _ :: _, _, _ => by simp [strLtAux]
  | [], [], _ :: _, h1, _ => by simp [strLtAux] at h1
  | _ :: _, [], _, h1, _ => by simp [strLtAux] at h1
  | a :: as, b :: bs, c :: cs, h1, h2 => by
      simp only [strLtAux] at h1 h2 ⊢
      by_cases hab : charLtB a b = true
      · by_cases hbc : charLtB b c = true
        · simp [charLtB_trans hab hbc]
        · simp only [Bool.not_eq_true] at hbc
          by_cases hcb : charLtB c b = true
          · simp [hbc, hcb] at h2
          · simp only [Bool.not_eq_true] at hcb
            rw [charLtB_antisymm hbc hcb] at hab
            simp [hab]
      · simp only [Bool.not_eq_true] at hab
        by_cases hba : charLtB b a = true
        · simp [hab, hba] at h1
        · simp only [Bool.not_eq_true] at hba
          simp only [hab, hba, if_false] at h1
          have hac : a = b := charLtB_antisymm hab hba
          subst hac
          by_cases hbc : charLtB a c = true
          · simp [hbc]
          · simp only [Bool.not_eq_true] at hbc
            by_cases hcb : charLtB c a = true
            · simp [hbc, hcb] at h2
            · simp only [Bool.not_eq_true] at hcb
              simp only [hbc, hcb, if_false] at h2 ⊢
              exact strLtAux_trans as bs cs h1 h2

instance : IsTotal String strLeP :=
  ⟨fun a b => by
    by_cases h : strLtAux b.data a.data = true
    · exact Or.inr (strLtAux_asymm _ _ h)
    · exact Or.inl (by simpa using h)⟩

instance : IsTrans String strLeP :=
  ⟨fun a b c hab hbc => by
    unfold strLeP at hab hbc ⊢
    by_cases hca : strLtAux c.data a.data = true
    · by_cases hbcl : strLtAux b.data c.data = true
      · have := strLtAux_trans _ _ _ hbcl hca
        rw [this] at hab; cases hab
      · simp only [Bool.not_eq_true] at hbcl
        have : b.data = c.data := strLtAux_antisymm _ _ hbcl hbc
        rw [← this] at hca
        rw [hca] at hab; cases hab
    · simpa using hca⟩

theorem strings_eq_of_data_eq {a b : String} (h : a.data = b.data) : a = b := by
  cases a; cases b; exact congrArg String.mk h

/-- One ledger row after type coercion (lines 32-34 of `app.py`):
`pd.to_numeric(..., errors='coerce')` and `pd.to_datetime(..., errors='coerce')`
turn unparseable entries into missing values, modelled as `none`.
`invoiceDate` is days since an epoch.  The `segment` field holds the value
merged onto the row at line 103; before the merge it is unused. -/
structure Row where
  invoiceNo : Option String
  stockCode : String
  description : String
  quantity : Option Int
  invoiceDate : Option Int
  unitPrice : Option Rat
  customerId : Option String
  country : String
  category : String
  rating : Rat
  segment : String
deriving DecidableEq

/-- Line 37: `df['Revenue'] = df['Quantity'] * df['UnitPrice']`, computed on the
coerced columns, so it is missing whenever either factor is missing. -/
def revenue (r : Row) : Option Rat :=
  match r.quantity, r.unitPrice with
  | some q, some p => some ((q : Rat) * p)
  | _, _ => none

/-- Lines 40-42: `dropna(subset=['InvoiceNo', 'CustomerID', 'Revenue'])`,
then `df[df['Quantity'] > 0]`, then `df[df['UnitPrice'] > 0]`.
A comparison against a missing value is false, as in pandas. -/
def normalize (rows : List Row) : List Row :=
  ((rows.filter fun r =>
      r.invoiceNo.isSome && r.customerId.isSome && (revenue r).isSome).filter fun r =>
      match r.quantity with
      | some q => decide (0 < q)
      | none => false).filter fun r =>
      match r.unitPrice with
      | some p => decide (0 < p)
      | none => false

/-- Result of the load step (lines 24-75).  The `try` branch cleans the file's
rows; the `except` branch prints the error and builds a 1000-row randomized
example ledger (lines 62-75) and the program continues on it.  The example
rows are pseudo-random, so the outcome is modelled by a dedicated
constructor rather than by fabricated row values. -/
inductive LoadOutcome where
  | ledger (rows : List Row)
  | exampleData
deriving DecidableEq

/-- Lines 24-75: an unreadable source (`none`) is caught by the `except` branch
and replaced by the example ledger; a readable source is cleaned by
`normalize` and used as-is, with no emptiness check. -/
def loadLedger : Option (List Row) → LoadOutcome
  | none => LoadOutcome.exampleData
  | some rows => LoadOutcome.ledger (normalize rows)

/-- Linear-interpolation quantile of an already sorted list, as computed by
`numpy` / `Series.quantile(q)` with the default `interpolation='linear'`:
position `q * (n - 1)` is split into an integer part `k` and a fractional
part, and the result interpolates between elements `k` and `k + 1`. -/
def quantileSorted (xs : List Rat) (q : Rat) : Rat :=
  let pos : Rat := q * ((xs.length : Rat) - 1)
  let k : Nat := (Int.floor pos).toNat
  let a : Rat := xs.getD k 0
  let b : Rat := xs.getD (k + 1) a
  a + (pos - Int.floor pos) * (b - a)

/-- The `k/4` quantile of the data, `k = 0..4`: `pd.qcut(x, 4)` computes its
bin edges at the quantile fractions `0, 1/4, 1/2, 3/4, 1`. -/
def rawEdge (xs : List Rat) (k : Nat) : Rat :=
  quantileSorted (List.insertionSort (· ≤ ·) xs) ((k : Rat) / 4)

/-- The five quantile edges `pd.qcut(x, 4)` computes. -/
def rawEdges (xs : List Rat) : List Rat :=
  [rawEdge xs 0, rawEdge xs 1, rawEdge xs 2, rawEdge xs 3, rawEdge xs 4]

/-- `duplicates='drop'`: repeated quantile edges are collapsed to one. -/
def qcutEdges (xs : List Rat) : List Rat :=
  (rawEdges xs).dedup

/-- Bin index of a value against the deduplicated edges: bins are
right-closed intervals and the first bin also contains its left edge,
so the index is the number of interior edges strictly below the value. -/
def qcutBin (edges : List Rat) (v : Rat) : Nat :=
  ((edges.drop 1).dropLast).countP fun e => decide (e < v)

/-- `pd.qcut(xs, 4, labels=labels, duplicates='drop')`.  After dropping
duplicate edges pandas still checks the label list against the remaining
bins and raises `ValueError: Bin labels must be one fewer than the number
of bin edges` on a mismatch, which is exactly what happens when a
degenerate distribution collapses bins under a fixed 4-label list. -/
def qcut (xs : List Rat) (labels : List Nat) : Except String (List Nat) :=
  let u := qcutEdges xs
  if u.length = labels.length + 1 then
    Except.ok (xs.map fun v => labels.getD (qcutBin u v) 0)
  else
    Except.error "Bin labels must be one fewer than the number of bin edges"

/-- `pd.qcut` over a column that may contain missing values: the quantile
edges are computed from the present values and a missing entry keeps a
missing score. -/
def qcutOpt (xs : List (Option Rat)) (labels : List Nat) :
    Except String (List (Option Nat)) :=
  let u := qcutEdges (xs.filterMap id)
  if u.length = labels.length + 1 then
    Except.ok (xs.map (Option.map fun v => labels.getD (qcutBin u v) 0))
  else
    Except.error "Bin labels must be one fewer than the number of bin edges"

/-- `Series.rank(method='first')` on integer data: the rank of entry `i` is
the number of strictly smaller entries, plus the number of equal entries
appearing earlier in the series, plus one, so tied values receive distinct
consecutive ranks in series order. -/
def ranksFirst (xs : List Nat) : List Nat :=
  (List.range xs.length).map fun i =>
    xs.countP (fun y => decide (y < xs.getD i 0))
      + (xs.take i).countP (fun y => decide (y = xs.getD i 0)) + 1

/-- Distinct non-null customer ids in ascending order: `df.groupby('CustomerID')`
sorts its group keys (pandas default `sort=True`) and drops null keys. -/
def rfmIds (rows : List Row) : List String :=
  List.insertionSort strLeP (rows.filterMap (fun r => r.customerId)).dedup

/-- The rows of one customer's group. -/
def rowsOfCustomer (rows : List Row) (c : String) : List Row :=
  rows.filter fun r => r.customerId == some c

/-- Line 80: `current_date = df['InvoiceDate'].max()` (missing dates skipped). -/
def ledgerMaxDate (rows : List Row) : Option Int :=
  (rows.filterMap (fun r => r.invoiceDate)).max?

/-- Line 82: `(current_date - x.max()).days` for one customer; missing if the
ledger or the customer has no parseable date. -/
def recencyOf (rows : List Row) (c : String) : Option Int :=
  (ledgerMaxDate rows).bind fun cur =>
    ((rowsOfCustomer rows c).filterMap (fun r => r.invoiceDate)).max?.map fun mx =>
      cur - mx

/-- The `R` column of the grouped table, in group-key order. -/
def rCol (rows : List Row) : List (Option Int) :=
  (rfmIds rows).map fun c => recencyOf rows c

/-- Line 83: `'InvoiceNo': 'nunique'` — count of distinct non-null invoice
ids per customer, in group-key order. -/
def fCol (rows : List Row) : List Nat :=
  (rfmIds rows).map fun c =>
    ((rowsOfCustomer rows c).filterMap (fun r => r.invoiceNo)).dedup.length

/-- Line 84: `'Revenue': 'sum'` per customer, in group-key order. -/
def mCol (rows : List Row) : List Rat :=
  (rfmIds rows).map fun c =>
    ((rowsOfCustomer rows c).filterMap revenue).sum

/-- Line 88: `rfm['R_Score'] = pd.qcut(rfm['R'], 4, labels=[4, 3, 2, 1],
duplicates='drop')`. -/
def rScores (rows : List Row) : Except String (List (Option Nat)) :=
  qcutOpt ((rCol rows).map (Option.map fun z : Int => (z : Rat))) [4, 3, 2, 1]

/-- Line 89: `rfm['F_Score'] = pd.qcut(rfm['F'].rank(method='first'), 4,
labels=[1, 2, 3, 4], duplicates='drop')`. -/
def fScores (rows : List Row) : Except String (List Nat) :=
  qcut ((ranksFirst (fCol rows)).map fun n : Nat => (n : Rat)) [1, 2, 3, 4]

/-- Line 90: `rfm['M_Score'] = pd.qcut(rfm['M'], 4, labels=[1, 2, 3, 4],
duplicates='drop')`. -/
def mScores (rows : List Row) : Except String (List Nat) :=
  qcut (mCol rows) [1, 2, 3, 4]

/-- The customer-to-frequency-score assignment the code produces: group keys
(in sorted order) zipped with the `F_Score` column, missing when the
binning raised. -/
def fScorePairs (rows : List Row) : Option (List (String × Nat)) :=
  match fScores rows with
  | Except.ok s => some ((rfmIds rows).zip s)
  | Except.error _ => none

/-- Line 92: the three scores rendered with `astype(str)` and concatenated. -/
def rfmCode (r f m : Nat) : String :=
  toString r ++ toString f ++ toString m

/-- Lines 95-100: the fixed `segment_map` dictionary. -/
def segmentMap : List (String × String) :=
  [("444", "Champions"), ("443", "Champions"), ("434", "Champions"),
   ("433", "Champions"),
   ("344", "Loyal Customers"), ("343", "Loyal Customers"),
   ("334", "Loyal Customers"), ("333", "Loyal Customers"),
   ("244", "Potential"), ("144", "New"), ("111", "Lost"),
   ("112", "Inactive"), ("221", "At Risk"), ("212", "At Risk")]

/-- Line 101: `rfm['RFM_Score'].map(segment_map).fillna('Others')`. -/
def segmentOf (code : String) : String :=
  (segmentMap.lookup code).getD "Others"

/-- The spec's segment table (section 4.3 of the spec), written out as a case
analysis on the three digit values, used to check `segmentOf` against it. -/
def segSpecTable (r f m : Nat) : String :=
  match r, f, m with
  | 4, 4, 4 => "Champions"
  | 4, 4, 3 => "Champions"
  | 4, 3, 4 => "Champions"
  | 4, 3, 3 => "Champions"
  | 3, 4, 4 => "Loyal Customers"
  | 3, 4, 3 => "Loyal Customers"
  | 3, 3, 4 => "Loyal Customers"
  | 3, 3, 3 => "Loyal Customers"
  | 2, 4, 4 => "Potential"
  | 1, 4, 4 => "New"
  | 1, 1, 1 => "Lost"
  | 1, 1, 2 => "Inactive"
  | 2, 2, 1 => "At Risk"
  | 2, 1, 2 => "At Risk"
  | _, _, _ => "Others"

/-- The filter state handed to `update_charts` (lines 329-341): optional date
bounds and optional category / country selections. -/
structure FilterSpec where
  dateFrom : Option Int
  dateTo : Option Int
  categories : Option (List String)
  countries : Option (List String)
deriving DecidableEq

/-- Lines 333-335: `if start_date and end_date:` — the inclusive date-range
filter runs only when both bounds are present; a row with a missing date
compares false and is dropped when the filter runs. -/
def dateFilter (dateFrom dateTo : Option Int) (rows : List Row) : List Row :=
  match dateFrom, dateTo with
  | some a, some b =>
      rows.filter fun r =>
        match r.invoiceDate with
        | some d => decide (a ≤ d) && decide (d ≤ b)
        | none => false
  | _, _ => rows

/-- Lines 337-338: `if categories:` — the category membership filter runs only
when the selection is truthy, so `None` and the empty list both mean no
restriction. -/
def catFilter (categories : Option (List String)) (rows : List Row) : List Row :=
  match categories with
  | some cs => if cs.isEmpty then rows else rows.filter fun r => cs.contains r.category
  | none => rows

/-- Lines 340-341: `if countries:` — same guard for the country filter. -/
def countryFilter (countries : Option (List String)) (rows : List Row) : List Row :=
  match countries with
  | some cs => if cs.isEmpty then rows else rows.filter fun r => cs.contains r.country
  | none => rows

/-- Lines 331-341 of `update_charts`: date, then category, then country
restriction. -/
def applyFilter (rows : List Row) (fs : FilterSpec) : List Row :=
  countryFilter fs.countries (catFilter fs.categories (dateFilter fs.dateFrom fs.dateTo rows))

/-- Civil-calendar month key of a day count (days since 1970-01-01), encoded
as `year * 12 + month`; this models `InvoiceDate.dt.to_period('M')` at
line 344.  Standard days-to-civil-date arithmetic with floor division. -/
def monthKey (z : Int) : Int :=
  let z' := z + 719468
  let era := Int.fdiv z' 146097
  let doe := z' - era * 146097
  let yoe := Int.fdiv (doe - Int.fdiv doe 1460 + Int.fdiv doe 36524 - Int.fdiv doe 146096) 365
  let doy := doe - (365 * yoe + Int.fdiv yoe 4 - Int.fdiv yoe 100)
  let mp := Int.fdiv (5 * doy + 2) 153
  let m := if mp < 10 then mp + 3 else mp - 9
  let y := yoe + era * 400 + (if m ≤ 2 then 1 else 0)
  y * 12 + m

/-- `filtered_df.groupby(key)['Revenue'].sum()` for a string key: group keys in
sorted order (pandas default), each with the sum of the present revenues of
its rows. -/
def groupRevenueBy (key : Row → String) (rows : List Row) : List (String × Rat) :=
  (List.insertionSort strLeP (rows.map key).dedup).map fun k =>
    (k, ((rows.filter fun r => key r == k).filterMap revenue).sum)

/-- Line 344: monthly revenue, grouped by calendar month of the invoice date
(rows with a missing date fall out of the groupby), months ascending. -/
def monthlyRevenue (rows : List Row) : List (Int × Rat) :=
  (List.insertionSort (· ≤ ·) (rows.filterMap fun r => r.invoiceDate.map monthKey).dedup).map
    fun k => (k, ((rows.filter fun r => r.invoiceDate.map monthKey == some k).filterMap revenue).sum)

/-- Descending-revenue order on keyed revenue totals, the order `nlargest`
returns rows in. -/
def byRevenueDesc (a b : String × Rat) : Prop := b.2 ≤ a.2

instance : DecidableRel byRevenueDesc := fun a b =>
  inferInstanceAs (Decidable (b.2 ≤ a.2))

instance : IsTotal (String × Rat) byRevenueDesc :=
  ⟨fun a b => (le_total b.2 a.2).elim Or.inl Or.inr⟩

instance : IsTrans (String × Rat) byRevenueDesc :=
  ⟨fun _ _ _ h1 h2 => le_trans h2 h1⟩

/-- Descending-count order on segment tallies, the order `value_counts`
returns rows in. -/
def byCountDesc (a b : String × Nat) : Prop := b.2 ≤ a.2

instance : DecidableRel byCountDesc := fun a b =>
  inferInstanceAs (Decidable (b.2 ≤ a.2))

instance : IsTotal (String × Nat) byCountDesc :=
  ⟨fun a b => (le_total b.2 a.2).elim Or.inl Or.inr⟩

instance : IsTrans (String × Nat) byCountDesc :=
  ⟨fun _ _ _ h1 h2 => le_trans h2 h1⟩

/-- Line 353: `filtered_df['Segment'].value_counts()` — row count per segment
value, largest first. -/
def segmentCounts (rows : List Row) : List (String × Nat) :=
  List.insertionSort byCountDesc
    ((List.insertionSort strLeP (rows.map fun r => r.segment).dedup).map fun k =>
      (k, rows.countP fun r => r.segment == k))

/-- Line 360: `filtered_df.groupby('Description')['Revenue'].sum().nlargest(10)`. -/
def topProducts (rows : List Row) : List (String × Rat) :=
  (List.insertionSort byRevenueDesc (groupRevenueBy (fun r => r.description) rows)).take 10

/-- Line 368: `filtered_df.groupby('Country')['Revenue'].sum().nlargest(5)`. -/
def topCountries (rows : List Row) : List (String × Rat) :=
  (List.insertionSort byRevenueDesc (groupRevenueBy (fun r => r.country) rows)).take 5

/-- Line 376: `filtered_df.groupby('Category')['Revenue'].sum()`. -/
def categoryRevenue (rows : List Row) : List (String × Rat) :=
  groupRevenueBy (fun r => r.category) rows

/-- The bundle of the five aggregate tables `update_charts` derives from the
filtered frame (the data behind `fig1` .. `fig5`). -/
structure AggregateResult where
  monthly : List (Int × Rat)
  segments : List (String × Nat)
  products : List (String × Rat)
  countries : List (String × Rat)
  categories : List (String × Rat)
deriving DecidableEq

/-- The five aggregates of an (already filtered) frame. -/
def aggregatesOf (rows : List Row) : AggregateResult :=
  { monthly := monthlyRevenue rows
    segments := segmentCounts rows
    products := topProducts rows
    countries := topCountries rows
    categories := categoryRevenue rows }

/-- The whole `update_charts` data path: filter, then aggregate. -/
def computeAggregates (rows : List Row) (fs : FilterSpec) : AggregateResult :=
  aggregatesOf (applyFilter rows fs)

/-- A baseline valid row used to build the concrete ledgers of the witnesses
and counterexamples. -/
def sampleRow : Row :=
  { invoiceNo := some "I1"
    stockCode := "S1"
    description := "P"
    quantity := some 1
    invoiceDate := some 0
    unitPrice := some 1
    customerId := some "A"
    country := "UK"
    category := "Books"
    rating := 4
    segment := "Others" }

/-- Distinct values of a list in first-seen encounter order. -/
def firstSeenKeys (l : List String) : List String :=
  l.foldl (fun acc x => if x ∈ acc then acc else acc ++ [x]) []

/-- The frequency scoring as the spec's words describe it (spec section 4.2):
the grouped table is kept in original first-seen encounter order of the
customers, distinct ranks are assigned in that order (first-seen gets the
lower rank within a tie group), and the ranks are quartile-binned.  This
definition exists only to be compared against `fScorePairs`, which embeds
the source's actual computation. -/
def fScorePairsSpecOrder (rows : List Row) : Option (List (String × Nat)) :=
  let ids := firstSeenKeys (rows.filterMap fun r => r.customerId)
  let fs := ids.map fun c =>
    ((rowsOfCustomer rows c).filterMap fun r => r.invoiceNo).dedup.length
  match qcut ((ranksFirst fs).map fun n : Nat => (n : Rat)) [1, 2, 3, 4] with
  | Except.ok s => some (ids.zip s)
  | Except.error _ => none

/-- Two customers whose transactions all carry the same invoice date, so both
recencies are 0 and the recency distribution is fully degenerate. -/
def c1Ledger : List Row :=
  [{ sampleRow with customerId := some "A", invoiceNo := some "I1" },
   { sampleRow with customerId := some "B", invoiceNo := some "I2" }]

/-- A raw row whose quantity failed numeric coercion: its derived revenue is
missing, so cleaning drops it and the row set yields zero valid rows. -/
def c2BadRow : Row := { sampleRow with quantity := none }

/-- A row that is valid in every required field except that its invoice date
failed to parse. -/
def c3NoDateRow : Row := { sampleRow with invoiceDate := none }

/-- A ledger in which customer B appears before customer A and both have
frequency 1, exposing the tie-break order of the frequency ranking. -/
def c4Ledger : List Row :=
  [{ sampleRow with customerId := some "B", invoiceNo := some "IB" },
   { sampleRow with customerId := some "A", invoiceNo := some "IA" }]

/-- Two products with identical summed revenue. -/
def c9Ledger : List Row :=
  [{ sampleRow with description := "P", unitPrice := some 10 },
   { sampleRow with description := "Q", unitPrice := some 10, invoiceNo := some "I2" }]

/-- C1 (code evaluated at the failing input): on a canonical transaction set
where every customer has the same recency, the quartile edges collapse to a
single value and the `R_Score` binning raises pandas' label-mismatch
`ValueError` instead of collapsing to fewer score buckets. -/
theorem c1_degenerate_recency_raises :
    rScores c1Ledger =
      Except.error "Bin labels must be one fewer than the number of bin edges" := by
  rfl

/-- C6: the segment classifier is total on the 64 codes of `{1,2,3,4}^3` and
agrees everywhere with the fixed table of the spec, with default
"Others" for unlisted codes. -/
theorem c6_segment_classifier_total :
    ∀ r f m : Fin 4,
      segmentOf (rfmCode (r.val + 1) (f.val + 1) (m.val + 1)) =
        segSpecTable (r.val + 1) (f.val + 1) (m.val + 1) := by
  decide

/-- C7: filtering with an empty category set yields the same aggregate result
as filtering with no category filter at all, for every ledger and every
other filter dimension; and an all-absent filter restricts nothing. -/
theorem c7_empty_category_no_restriction (rows : List Row) (d1 d2 : Option Int)
    (ctry : Option (List String)) :
    computeAggregates rows
        { dateFrom := d1, dateTo := d2, categories := some [], countries := ctry } =
      computeAggregates rows
        { dateFrom := d1, dateTo := d2, categories := none, countries := ctry } ∧
    applyFilter rows
        { dateFrom := none, dateTo := none, categories := none, countries := none } =
      rows := by
  exact ⟨rfl, rfl⟩

/-- C10: the date filter runs only when both bounds are supplied; a filter
carrying exactly one date bound restricts nothing, for every ledger and
every category/country selection. -/
theorem c10_single_date_bound_ignored (rows : List Row) (a : Int)
    (cats ctrys : Option (List String)) :
    computeAggregates rows
        { dateFrom := some a, dateTo := none, categories := cats, countries := ctrys } =
      computeAggregates rows
        { dateFrom := none, dateTo := none, categories := cats, countries := ctrys } ∧
    computeAggregates rows
        { dateFrom := none, dateTo := some a, categories := cats, countries := ctrys } =
      computeAggregates rows
        { dateFrom := none, dateTo := none, categories := cats, countries := ctrys } := by
  exact ⟨rfl, rfl⟩

/-- C2, counterexample: the load step never reports a fatal error — an
unreadable source is silently replaced by the generated example ledger,
and a readable source whose rows all fail cleaning proceeds with the
empty ledger. -/
theorem c2_counterexample :
    loadLedger none = LoadOutcome.exampleData ∧
    loadLedger (some [c2BadRow]) = LoadOutcome.ledger [] := by
  exact ⟨rfl, rfl⟩

/-- C2 as amended: on a source yielding zero valid rows the program continues
with the empty cleaned ledger, and on an unreadable source it continues
with the substitute example ledger; no load error reaches the caller. -/
theorem c2_amended_fallback (rows : List Row) (h : normalize rows = []) :
    loadLedger (some rows) = LoadOutcome.ledger [] ∧
    loadLedger none = LoadOutcome.exampleData := by
  exact ⟨by simp [loadLedger, h], rfl⟩

/-- Witness for `c2_amended_fallback` at a concrete one-row source whose only
row fails cleaning. -/
theorem c2_amended_fallback_witness :
    normalize [c2BadRow] = [] ∧
    (loadLedger (some [c2BadRow]) = LoadOutcome.ledger [] ∧
      loadLedger none = LoadOutcome.exampleData) :=
  ⟨by rfl, c2_amended_fallback [c2BadRow] (by rfl)⟩

/-- C3, counterexample: a row whose invoice date failed to parse but whose
other required fields are valid is retained by the cleaning step (the
`dropna` at line 40 does not list `InvoiceDate`), so a retained row can
have a null invoice date. -/
theorem c3_counterexample :
    normalize [c3NoDateRow] = [c3NoDateRow] ∧ c3NoDateRow.invoiceDate = none := by
  exact ⟨rfl, rfl⟩

/-- C3 as amended: every row retained by normalization has a non-null invoice
id, a non-null customer id, a positive quantity and a positive unit price;
the invoice date may still be null, since unparseable dates are not
dropped. -/
theorem c3_amended_invariant (rows : List Row) (r : Row) (hr : r ∈ normalize rows) :
    r.invoiceNo.isSome ∧ r.customerId.isSome ∧
    (∃ q, r.quantity = some q ∧ 0 < q) ∧ (∃ p, r.unitPrice = some p ∧ 0 < p) := by
  unfold normalize at hr
  simp only [List.mem_filter] at hr
  obtain ⟨⟨⟨_, h1⟩, h2⟩, h3⟩ := hr
  simp only [Bool.and_eq_true] at h1
  refine ⟨h1.1.1, h1.1.2, ?_, ?_⟩
  · cases hq : r.quantity with
    | none => rw [hq] at h2; exact absurd h2 (by simp)
    | some q => rw [hq] at h2; exact ⟨q, rfl, by simpa using h2⟩
  · cases hp : r.unitPrice with
    | none => rw [hp] at h3; exact absurd h3 (by simp)
    | some p => rw [hp] at h3; exact ⟨p, rfl, by simpa using h3⟩

/-- Witness for `c3_amended_invariant` on a concrete two-row input, one row
retained and one dropped. -/
theorem c3_amended_invariant_witness :
    sampleRow ∈ normalize [sampleRow, c2BadRow] ∧
    (sampleRow.invoiceNo.isSome ∧ sampleRow.customerId.isSome ∧
      (∃ q, sampleRow.quantity = some q ∧ 0 < q) ∧
      (∃ p, sampleRow.unitPrice = some p ∧ 0 < p)) :=
  ⟨by decide, c3_amended_invariant [sampleRow, c2BadRow] sampleRow (by decide)⟩

/-- C4, counterexample: with customer B encountered before customer A and both
having frequency 1, the source assigns the lower rank - hence the lower
frequency score - to A (the grouped table is sorted by customer id), while
the claimed first-seen-encounter-order tie-break would assign it to B; the
two methods give customer A different scores. -/
theorem c4_counterexample :
    fScorePairs c4Ledger = some [("A", 1), ("B", 4)] ∧
    fScorePairsSpecOrder c4Ledger = some [("B", 1), ("A", 4)] ∧
    ((fScorePairs c4Ledger).getD []).lookup "A" ≠
      ((fScorePairsSpecOrder c4Ledger).getD []).lookup "A" := by
  refine ⟨by rfl, by rfl, by decide⟩

/-- C9, counterexample: two products with equal summed revenue both appear in
the top-products aggregate, so its entries are not sorted strictly
descending by revenue (the order is only non-increasing). -/
theorem c9_counterexample :
    (computeAggregates c9Ledger
        { dateFrom := none, dateTo := none, categories := none, countries := none }).products =
      [("P", 10), ("Q", 10)] ∧
    ¬ List.Sorted (fun a b : String × Rat => b.2 < a.2)
        (computeAggregates c9Ledger
          { dateFrom := none, dateTo := none, categories := none,
            countries := none }).products := by
  refine ⟨by rfl, ?_⟩
  intro h
  rw [show (computeAggregates c9Ledger
      { dateFrom := none, dateTo := none, categories := none, countries := none }).products =
      [("P", 10), ("Q", 10)] from rfl] at h
  have h10 : ((10 : Rat) < 10) := List.rel_of_sorted_cons h ("Q", 10) (by simp)
  exact absurd h10 (by norm_num)

theorem rawEdges_length (xs : List Rat) : (rawEdges xs).length = 5 := rfl

theorem sorted_le_getLast {l : List Rat} (hs : List.Sorted (· ≤ ·) l) (hne : l ≠ [])
    {x : Rat} (hx : x ∈ l) : x ≤ l.getLast hne := by
  obtain ⟨i, rfl⟩ := List.mem_iff_get.mp hx
  rw [List.getLast_eq_get l hne]
  refine hs.rel_get_of_le (Fin.le_def.mpr ?_)
  have := i.isLt
  simp only []
  omega

/-- The linear interpolation `quantileSorted` always lands in a segment
between two consecutive data points (or is a data point itself). -/
theorem quantileSorted_segment (xs : List Rat) (hs : List.Sorted (· ≤ ·) xs)
    (hne : xs ≠ []) (q : Rat) (h0 : 0 ≤ q) (h1 : q ≤ 1) :
    ∃ a b : Rat, a ∈ xs ∧ b ∈ xs ∧ a ≤ b ∧
      ∃ t : Rat, 0 ≤ t ∧ t < 1 ∧ quantileSorted xs q = a + t * (b - a) := by
  have hn : 0 < xs.length := List.length_pos.mpr hne
  set pos : Rat := q * ((xs.length : Rat) - 1) with hpos
  have hn1 : (0 : Rat) ≤ (xs.length : Rat) - 1 := by
    have h2 : (1 : Rat) ≤ (xs.length : Rat) := by exact_mod_cast hn
    linarith
  have hpos0 : 0 ≤ pos := mul_nonneg h0 hn1
  have hposle : pos ≤ (xs.length : Rat) - 1 := by
    calc pos ≤ 1 * ((xs.length : Rat) - 1) := by
          rw [hpos]; exact mul_le_mul_of_nonneg_right h1 hn1
      _ = (xs.length : Rat) - 1 := one_mul _
  set k : Nat := (Int.floor pos).toNat with hk
  have hkz : (k : Int) = Int.floor pos := Int.toNat_of_nonneg (Int.floor_nonneg.mpr hpos0)
  have hkq : (k : Rat) ≤ pos := by
    have h2 := Int.floor_le pos
    rw [← hkz] at h2
    exact_mod_cast h2
  have hkn : k < xs.length := by
    have h2 : (k : Rat) + 1 ≤ (xs.length : Rat) := by linarith
    exact_mod_cast h2
  have ha : xs.getD k 0 = xs.get ⟨k, hkn⟩ := List.getD_eq_get xs 0 hkn
  have hamem : xs.get ⟨k, hkn⟩ ∈ xs := List.get_mem xs k hkn
  have ht0 : 0 ≤ pos - Int.floor pos := by
    have h2 := Int.floor_le pos; linarith
  have ht1 : pos - Int.floor pos < 1 := by
    have h2 := Int.lt_floor_add_one pos
    push_cast at h2 ⊢
    linarith
  by_cases hk1 : k + 1 < xs.length
  · have hb : xs.getD (k + 1) (xs.getD k 0) = xs.get ⟨k + 1, hk1⟩ :=
      List.getD_eq_get xs _ hk1
    refine ⟨xs.get ⟨k, hkn⟩, xs.get ⟨k + 1, hk1⟩, hamem, List.get_mem xs _ hk1, ?_,
      pos - Int.floor pos, ht0, ht1, ?_⟩
    · exact hs.rel_get_of_lt (Fin.mk_lt_mk.mpr (Nat.lt_succ_self k))
    · simp only [quantileSorted]
      rw [← hpos, ← hk, hb, ha]
  · have hb : xs.getD (k + 1) (xs.getD k 0) = xs.getD k 0 :=
      List.getD_eq_default xs _ (by omega)
    refine ⟨xs.get ⟨k, hkn⟩, xs.get ⟨k, hkn⟩, hamem, hamem, le_refl _,
      pos - Int.floor pos, ht0, ht1, ?_⟩
    simp only [quantileSorted]
    rw [← hpos, ← hk, hb, ha]

theorem le_quantileSorted {xs : List Rat} (hs : List.Sorted (· ≤ ·) xs) (hne : xs ≠ [])
    {q : Rat} (h0 : 0 ≤ q) (h1 : q ≤ 1) {c : Rat} (hc : ∀ x ∈ xs, c ≤ x) :
    c ≤ quantileSorted xs q := by
  obtain ⟨a, b, ha, hb, hab, t, ht0, ht1, heq⟩ := quantileSorted_segment xs hs hne q h0 h1
  rw [heq]
  have hca := hc a ha
  nlinarith [mul_nonneg ht0 (sub_nonneg.mpr hab)]

theorem quantileSorted_le {xs : List Rat} (hs : List.Sorted (· ≤ ·) xs) (hne : xs ≠ [])
    {q : Rat} (h0 : 0 ≤ q) (h1 : q ≤ 1) {c : Rat} (hc : ∀ x ∈ xs, x ≤ c) :
    quantileSorted xs q ≤ c := by
  obtain ⟨a, b, ha, hb, hab, t, ht0, ht1, heq⟩ := quantileSorted_segment xs hs hne q h0 h1
  rw [heq]
  have hbc := hc b hb
  nlinarith [mul_nonneg (le_of_lt (sub_pos.mpr ht1)) (sub_nonneg.mpr hab)]

theorem quantileSorted_one {xs : List Rat} (hne : xs ≠ []) :
    quantileSorted xs 1 = xs.getLast hne := by
  have hn : 0 < xs.length := List.length_pos.mpr hne
  have hcast : (1 : Rat) * ((xs.length : Rat) - 1) = ((xs.length - 1 : Nat) : Rat) := by
    rw [one_mul, Nat.cast_sub hn, Nat.cast_one]
  simp only [quantileSorted]
  rw [hcast, Int.floor_natCast, Int.toNat_natCast]
  rw [show (((xs.length - 1 : Nat) : Int) : Rat) = ((xs.length - 1 : Nat) : Rat) by push_cast; ring]
  rw [sub_self, zero_mul, add_zero]
  rw [List.getLast_eq_get xs hne, List.getD_eq_get xs 0 (by omega)]

theorem qcut_ok_iff {xs : List Rat} {labels scores : List Nat} :
    qcut xs labels = Except.ok scores ↔
      (qcutEdges xs).length = labels.length + 1 ∧
        scores = xs.map fun v => labels.getD (qcutBin (qcutEdges xs) v) 0 := by
  simp only [qcut]
  by_cases h : (qcutEdges xs).length = labels.length + 1
  · rw [if_pos h]
    constructor
    · intro h2
      exact ⟨h, (Except.ok.inj h2).symm⟩
    · intro h2
      rw [h2.2]
  · rw [if_neg h]
    constructor
    · intro h2
      exact Except.noConfusion h2
    · intro h2
      exact absurd h2.1 h

theorem qcut_edges_of_ok {xs : List Rat} {labels scores : List Nat}
    (h : qcut xs labels = Except.ok scores) (hlab : labels.length = 4) :
    qcutEdges xs = rawEdges xs ∧ (rawEdges xs).Nodup := by
  have hlen := (qcut_ok_iff.mp h).1
  have hsub : (qcutEdges xs).Sublist (rawEdges xs) := List.dedup_sublist _
  have hl : (qcutEdges xs).length = (rawEdges xs).length := by
    rw [hlen, hlab, rawEdges_length]
  have heq : qcutEdges xs = rawEdges xs := (List.Sublist.length_eq hsub).mp hl
  have hnd : (qcutEdges xs).Nodup := List.nodup_dedup (rawEdges xs)
  exact ⟨heq, heq ▸ hnd⟩

theorem v_le_rawEdge {xs : List Rat} {v : Rat} (hv : v ∈ xs)
    (hmin : ∀ x ∈ xs, v ≤ x) (k : Nat) (hk : k ≤ 4) : v ≤ rawEdge xs k := by
  have hperm := List.perm_insertionSort (fun a b : Rat => a ≤ b) xs
  have hsne : List.insertionSort (fun a b : Rat => a ≤ b) xs ≠ [] := by
    intro hnil
    exact List.ne_nil_of_mem hv
      (List.eq_nil_of_length_eq_zero (by rw [← hperm.length_eq, hnil]; rfl))
  apply le_quantileSorted (List.sorted_insertionSort _ _) hsne
  · positivity
  · rw [div_le_one (by norm_num)]
    exact_mod_cast hk
  · intro x hx
    exact hmin x (hperm.mem_iff.mp hx)

theorem rawEdge_le_v {xs : List Rat} {v : Rat} (hv : v ∈ xs)
    (hmax : ∀ x ∈ xs, x ≤ v) (k : Nat) (hk : k ≤ 4) : rawEdge xs k ≤ v := by
  have hperm := List.perm_insertionSort (fun a b : Rat => a ≤ b) xs
  have hsne : List.insertionSort (fun a b : Rat => a ≤ b) xs ≠ [] := by
    intro hnil
    exact List.ne_nil_of_mem hv
      (List.eq_nil_of_length_eq_zero (by rw [← hperm.length_eq, hnil]; rfl))
  apply quantileSorted_le (List.sorted_insertionSort _ _) hsne
  · positivity
  · rw [div_le_one (by norm_num)]
    exact_mod_cast hk
  · intro x hx
    exact hmax x (hperm.mem_iff.mp hx)

theorem qcutBin_eq_zero_of_min {xs : List Rat} {v : Rat} (hv : v ∈ xs)
    (hmin : ∀ x ∈ xs, v ≤ x) : qcutBin (qcutEdges xs) v = 0 := by
  unfold qcutBin
  rw [List.countP_eq_zero]
  intro e he
  simp only [decide_eq_true_eq, not_lt]
  have he1 : e ∈ qcutEdges xs :=
    (List.drop_sublist 1 (qcutEdges xs)).subset
      ((List.dropLast_sublist ((qcutEdges xs).drop 1)).subset he)
  have he2 : e ∈ rawEdges xs := (List.dedup_sublist (rawEdges xs)).subset he1
  simp only [rawEdges, List.mem_cons, List.not_mem_nil, or_false] at he2
  rcases he2 with rfl | rfl | rfl | rfl | rfl
  · exact v_le_rawEdge hv hmin 0 (by omega)
  · exact v_le_rawEdge hv hmin 1 (by omega)
  · exact v_le_rawEdge hv hmin 2 (by omega)
  · exact v_le_rawEdge hv hmin 3 (by omega)
  · exact v_le_rawEdge hv hmin 4 (by omega)

theorem qcutBin_eq_three_of_max {xs : List Rat} {labels scores : List Nat}
    (hok : qcut xs labels = Except.ok scores) (hlab : labels.length = 4)
    {v : Rat} (hv : v ∈ xs) (hmax : ∀ x ∈ xs, x ≤ v) :
    qcutBin (qcutEdges xs) v = 3 := by
  obtain ⟨hedge, hnd⟩ := qcut_edges_of_ok hok hlab
  have hxs : xs ≠ [] := List.ne_nil_of_mem hv
  have hsorted : List.Sorted (· ≤ ·) (List.insertionSort (fun a b : Rat => a ≤ b) xs) :=
    List.sorted_insertionSort _ _
  have hperm := List.perm_insertionSort (fun a b : Rat => a ≤ b) xs
  have hsne : List.insertionSort (fun a b : Rat => a ≤ b) xs ≠ [] := by
    intro hnil
    exact hxs (List.eq_nil_of_length_eq_zero (by rw [← hperm.length_eq, hnil]; rfl))
  have hlastv : (List.insertionSort (fun a b : Rat => a ≤ b) xs).getLast hsne = v := by
    refine le_antisymm (hmax _ (hperm.mem_iff.mp (List.getLast_mem hsne))) ?_
    exact sorted_le_getLast hsorted hsne (hperm.mem_iff.mpr hv)
  have hq4 : rawEdge xs 4 = v := by
    unfold rawEdge
    rw [show (((4 : Nat) : Rat) / 4) = 1 by norm_num, quantileSorted_one hsne, hlastv]
  have hnd5 : ([rawEdge xs 0, rawEdge xs 1, rawEdge xs 2, rawEdge xs 3,
      rawEdge xs 4] : List Rat).Nodup := hnd
  simp only [List.nodup_cons, List.mem_cons, List.mem_singleton, List.not_mem_nil,
    or_false, not_or] at hnd5
  have h1 : rawEdge xs 1 < v :=
    lt_of_le_of_ne (rawEdge_le_v hv hmax 1 (by omega)) (hq4 ▸ hnd5.2.1.2.2)
  have h2 : rawEdge xs 2 < v :=
    lt_of_le_of_ne (rawEdge_le_v hv hmax 2 (by omega)) (hq4 ▸ hnd5.2.2.1.2)
  have h3 : rawEdge xs 3 < v :=
    lt_of_le_of_ne (rawEdge_le_v hv hmax 3 (by omega)) (hq4 ▸ hnd5.2.2.2.1)
  have hbin : qcutBin (qcutEdges xs) v =
      List.countP (fun e => decide (e < v))
        [rawEdge xs 1, rawEdge xs 2, rawEdge xs 3] := by
    rw [hedge]; rfl
  rw [hbin]
  simp [List.countP_cons, h1, h2, h3]

theorem getD_map_rat {g : Rat → Nat} {xs : List Rat} {i : Nat} (hi : i < xs.length) :
    (xs.map g).getD i 0 = g (xs.getD i 0) := by
  rw [List.getD_eq_get (xs.map g) 0 (by simpa using hi), List.getD_eq_get xs 0 hi]
  simp [List.get_eq_getElem, List.getElem_map]

theorem labels4321_getD_le (n : Nat) : ([4, 3, 2, 1] : List Nat).getD n 0 ≤ 4 := by
  rcases n with _ | _ | _ | _ | m <;> simp [List.getD]

/-- C5: on any customer recency population on which the `R_Score` binning
succeeds, the customer with the smallest recency receives score 4 - the
maximum score present in the distribution, since every assigned score is
at most 4 - and the customer with the largest recency receives score 1. -/
theorem c5_recency_score_inverted (rs : List Rat) (scores : List Nat) (i j : Nat)
    (hok : qcut rs [4, 3, 2, 1] = Except.ok scores)
    (hi : i < rs.length) (hmin : ∀ x ∈ rs, rs.getD i 0 ≤ x)
    (hj : j < rs.length) (hmax : ∀ x ∈ rs, x ≤ rs.getD j 0) :
    scores.getD i 0 = 4 ∧ (∀ s ∈ scores, s ≤ 4) ∧ scores.getD j 0 = 1 := by
  have hmem_i : rs.getD i 0 ∈ rs := by
    rw [List.getD_eq_get rs 0 hi]; exact List.get_mem rs i hi
  have hmem_j : rs.getD j 0 ∈ rs := by
    rw [List.getD_eq_get rs 0 hj]; exact List.get_mem rs j hj
  obtain ⟨hlen, hsc⟩ := qcut_ok_iff.mp hok
  refine ⟨?_, ?_, ?_⟩
  · rw [hsc, getD_map_rat hi, qcutBin_eq_zero_of_min hmem_i hmin]
    rfl
  · intro s hs
    rw [hsc] at hs
    obtain ⟨x, hx, rfl⟩ := List.mem_map.mp hs
    exact labels4321_getD_le _
  · rw [hsc, getD_map_rat hj, qcutBin_eq_three_of_max hok rfl hmem_j hmax]
    rfl

/-- Witness for `c5_recency_score_inverted` on the four-customer recency
population `[0, 1, 2, 3]`. -/
theorem c5_recency_score_inverted_witness :
    qcut [0, 1, 2, 3] [4, 3, 2, 1] = Except.ok [4, 3, 2, 1] ∧
    (([4, 3, 2, 1] : List Nat).getD 0 0 = 4 ∧ (∀ s ∈ ([4, 3, 2, 1] : List Nat), s ≤ 4) ∧
      ([4, 3, 2, 1] : List Nat).getD 3 0 = 1) :=
  ⟨by rfl,
    c5_recency_score_inverted [0, 1, 2, 3] [4, 3, 2, 1] 0 3 (by rfl)
      (by norm_num) (by decide) (by norm_num) (by decide)⟩

theorem catFilter_nil (cats : Option (List String)) : catFilter cats [] = [] := by
  unfold catFilter
  cases cats with
  | none => rfl
  | some cs => split <;> simp

theorem countryFilter_nil (ctrys : Option (List String)) : countryFilter ctrys [] = [] := by
  unfold countryFilter
  cases ctrys with
  | none => rfl
  | some cs => split <;> simp

/-- C8: a filter whose date bounds are inverted yields an empty filtered set,
and every one of the five downstream aggregates degrades to an empty
series rather than erroring, for every ledger and every category/country
selection. -/
theorem c8_inverted_bounds_degrade (rows : List Row) (a b : Int)
    (cats ctrys : Option (List String)) (h : b < a) :
    applyFilter rows
        { dateFrom := some a, dateTo := some b, categories := cats, countries := ctrys } = [] ∧
    computeAggregates rows
        { dateFrom := some a, dateTo := some b, categories := cats, countries := ctrys } =
      { monthly := [], segments := [], products := [], countries := [], categories := [] } := by
  have hdate : dateFilter (some a) (some b) rows = [] := by
    unfold dateFilter
    rw [List.filter_eq_nil]
    intro r hr
    cases hd : r.invoiceDate with
    | none => simp
    | some d =>
        simp only [Bool.and_eq_true, decide_eq_true_eq, not_and]
        intro h1 h2
        omega
  have hfil : applyFilter rows
      { dateFrom := some a, dateTo := some b, categories := cats, countries := ctrys } = [] := by
    unfold applyFilter
    rw [hdate, catFilter_nil, countryFilter_nil]
  refine ⟨hfil, ?_⟩
  unfold computeAggregates
  rw [hfil]
  rfl

/-- Witness for `c8_inverted_bounds_degrade` at a one-row ledger and the
inverted bounds `[1, 0]`. -/
theorem c8_inverted_bounds_degrade_witness :
    ((0 : Int) < 1) ∧
    (applyFilter [sampleRow]
        { dateFrom := some 1, dateTo := some 0, categories := none, countries := none } = [] ∧
      computeAggregates [sampleRow]
          { dateFrom := some 1, dateTo := some 0, categories := none, countries := none } =
        { monthly := [], segments := [], products := [], countries := [], categories := [] }) :=
  ⟨by norm_num, c8_inverted_bounds_degrade [sampleRow] 1 0 none none (by norm_num)⟩

/-- C9 as amended: the top-products aggregate has at most 10 entries and is
sorted in non-increasing order of summed revenue (descending with ties
allowed, not strictly descending), for every ledger and filter. -/
theorem c9_amended_top_products (rows : List Row) (fs : FilterSpec) :
    (computeAggregates rows fs).products.length ≤ 10 ∧
    List.Sorted byRevenueDesc (computeAggregates rows fs).products := by
  constructor
  · show (List.take 10 _).length ≤ 10
    rw [List.length_take]
    exact min_le_left _ _
  · have hs : List.Sorted byRevenueDesc
        (List.insertionSort byRevenueDesc
          (groupRevenueBy (fun r => r.description) (applyFilter rows fs))) :=
      List.sorted_insertionSort _ _
    exact List.Pairwise.sublist (List.take_sublist _ _) hs

theorem countP_add_countP_le_length (p q : Nat → Bool)
    (hdisj : ∀ x, ¬(p x = true ∧ q x = true)) :
    ∀ xs : List Nat, xs.countP p + xs.countP q ≤ xs.length
  | [] => by simp
  | a :: l => by
      have ihl := countP_add_countP_le_length p q hdisj l
      simp only [List.countP_cons, List.length_cons]
      cases hp : p a with
      | true =>
          cases hq : q a with
          | true => exact absurd ⟨hp, hq⟩ (hdisj a)
          | false => simp; omega
      | false =>
          cases hq : q a with
          | true => simp; omega
          | false => simp; omega

theorem countP_add_countP_eq_length (p q : Nat → Bool)
    (hdisj : ∀ x, ¬(p x = true ∧ q x = true)) :
    ∀ xs : List Nat, (∀ x ∈ xs, p x = true ∨ q x = true) →
      xs.countP p + xs.countP q = xs.length
  | [], _ => by simp
  | a :: l, hcov => by
      have ihl := countP_add_countP_eq_length p q hdisj l
        (fun x hx => hcov x (List.mem_cons_of_mem a hx))
      have ha := hcov a (List.mem_cons_self a l)
      simp only [List.countP_cons, List.length_cons]
      rcases ha with hp | hq
      · rw [hp]
        cases hqv : q a with
        | true => exact absurd ⟨hp, hqv⟩ (hdisj a)
        | false => simp; omega
      · rw [hq]
        cases hpv : p a with
        | true => exact absurd ⟨hpv, hq⟩ (hdisj a)
        | false => simp; omega

theorem countP_take_succ_le (p : Nat → Bool) {xs : List Nat} {i j : Nat} (hij : i < j)
    (hi : i < xs.length) (hp : p xs[i] = true) :
    (xs.take i).countP p + 1 ≤ (xs.take j).countP p := by
  rw [show j = i + (j - i) by omega, List.take_add, List.countP_append]
  have h1 : 1 ≤ ((xs.drop i).take (j - i)).countP p := by
    rw [List.drop_eq_getElem_cons hi, show j - i = (j - i - 1) + 1 by omega,
      List.take_succ_cons, List.countP_cons, hp]
    simp
  omega

theorem rank_formula_le_length {xs : List Nat} {i : Nat} (hi : i < xs.length) :
    xs.countP (fun y => decide (y < xs[i])) +
      (xs.take i).countP (fun y => decide (y = xs[i])) + 1 ≤ xs.length := by
  have hdisj : ∀ x : Nat,
      ¬(decide (x < xs[i]) = true ∧ decide (x = xs[i]) = true) := by
    intro x hx
    simp only [decide_eq_true_eq] at hx
    omega
  have hsum := countP_add_countP_le_length (fun y => decide (y < xs[i]))
    (fun y => decide (y = xs[i])) hdisj xs
  have htake := countP_take_succ_le (fun y => decide (y = xs[i])) hi hi (by simp)
  rw [List.take_length] at htake
  omega

theorem rank_formula_eq_one {xs : List Nat} {i : Nat} (hi : i < xs.length)
    (hmin : ∀ x ∈ xs, xs[i] ≤ x)
    (hfirst : ∀ j, j < i → xs.getD j 0 ≠ xs[i]) :
    xs.countP (fun y => decide (y < xs[i])) +
      (xs.take i).countP (fun y => decide (y = xs[i])) + 1 = 1 := by
  have h1 : xs.countP (fun y => decide (y < xs[i])) = 0 := by
    rw [List.countP_eq_zero]
    intro y hy
    simp only [decide_eq_true_eq]
    exact not_lt.mpr (hmin y hy)
  have h2 : (xs.take i).countP (fun y => decide (y = xs[i])) = 0 := by
    rw [List.countP_eq_zero]
    intro y hy
    simp only [decide_eq_true_eq]
    obtain ⟨j, hjl, rfl⟩ := List.mem_iff_getElem.mp hy
    have hj2 : j < i := by
      have := hjl
      rw [List.length_take] at this
      omega
    rw [List.getElem_take]
    intro heq
    exact hfirst j hj2 (by rw [List.getD_eq_getElem xs 0 (by omega)]; exact heq)
  omega

theorem rank_formula_eq_length {xs : List Nat} {i : Nat} (hi : i < xs.length)
    (hmax : ∀ x ∈ xs, x ≤ xs[i])
    (hlast : ∀ j, i < j → j < xs.length → xs.getD j 0 ≠ xs[i]) :
    xs.countP (fun y => decide (y < xs[i])) +
      (xs.take i).countP (fun y => decide (y = xs[i])) + 1 = xs.length := by
  have hsplit : xs.countP (fun y => decide (y = xs[i])) =
      (xs.take i).countP (fun y => decide (y = xs[i])) + 1 := by
    have happ : xs.countP (fun y => decide (y = xs[i])) =
        (xs.take i).countP (fun y => decide (y = xs[i])) +
          (xs.drop i).countP (fun y => decide (y = xs[i])) := by
      rw [← List.countP_append, List.take_append_drop]
    rw [happ, List.drop_eq_getElem_cons hi, List.countP_cons]
    have hz : (xs.drop (i + 1)).countP (fun y => decide (y = xs[i])) = 0 := by
      rw [List.countP_eq_zero]
      intro y hy
      simp only [decide_eq_true_eq]
      obtain ⟨j, hjl, rfl⟩ := List.mem_iff_getElem.mp hy
      have hjlen : i + 1 + j < xs.length := by
        have := hjl
        rw [List.length_drop] at this
        omega
      rw [List.getElem_drop]
      have hne := hlast (i + 1 + j) (by omega) hjlen
      rw [List.getD_eq_getElem xs 0 hjlen] at hne
      exact hne
    rw [hz]
    simp
  have hcov : ∀ x ∈ xs, decide (x < xs[i]) = true ∨ decide (x = xs[i]) = true := by
    intro x hx
    simp only [decide_eq_true_eq]
    have := hmax x hx
    omega
  have hdisj : ∀ x : Nat,
      ¬(decide (x < xs[i]) = true ∧ decide (x = xs[i]) = true) := by
    intro x hx
    simp only [decide_eq_true_eq] at hx
    omega
  have htot := countP_add_countP_eq_length (fun y => decide (y < xs[i]))
    (fun y => decide (y = xs[i])) hdisj xs hcov
  omega

theorem ranksFirst_length (xs : List Nat) : (ranksFirst xs).length = xs.length := by
  simp [ranksFirst]

theorem ranksFirst_getD {xs : List Nat} {i : Nat} (hi : i < xs.length) :
    (ranksFirst xs).getD i 0 =
      xs.countP (fun y => decide (y < xs.getD i 0)) +
        (xs.take i).countP (fun y => decide (y = xs.getD i 0)) + 1 := by
  unfold ranksFirst
  rw [List.getD_eq_getElem _ 0 (by simpa using hi)]
  simp [List.getElem_map, List.getElem_range]

theorem ranksFirst_pos {xs : List Nat} {r : Nat} (hr : r ∈ ranksFirst xs) : 1 ≤ r := by
  unfold ranksFirst at hr
  obtain ⟨i, hi, rfl⟩ := List.mem_map.mp hr
  omega

theorem ranksFirst_le_length {xs : List Nat} {r : Nat} (hr : r ∈ ranksFirst xs) :
    r ≤ xs.length := by
  unfold ranksFirst at hr
  obtain ⟨i, hi, rfl⟩ := List.mem_map.mp hr
  rw [List.mem_range] at hi
  rw [List.getD_eq_getElem xs 0 hi]
  exact rank_formula_le_length hi

theorem ranksFirst_lt_of_tie {xs : List Nat} {i j : Nat} (hij : i < j) (hj : j < xs.length)
    (heq : xs.getD i 0 = xs.getD j 0) :
    (ranksFirst xs).getD i 0 < (ranksFirst xs).getD j 0 := by
  have hi : i < xs.length := lt_trans hij hj
  rw [ranksFirst_getD hi, ranksFirst_getD hj, heq]
  have hp : (fun y => decide (y = xs.getD j 0)) xs[i] = true := by
    simp only [decide_eq_true_eq]
    rw [← List.getD_eq_getElem xs 0 hi]
    exact heq
  have hstep := countP_take_succ_le (fun y => decide (y = xs.getD j 0)) hij hi hp
  omega

theorem strLtP_of_le_ne {a b : String} (hle : strLeP a b) (hne : a ≠ b) : strLtP a b := by
  unfold strLeP at hle
  unfold strLtP
  by_cases h : strLtAux a.data b.data = true
  · exact h
  · exact absurd (strings_eq_of_data_eq
      (strLtAux_antisymm _ _ (by simpa using h) hle)) hne

theorem getD_map_natCast {xs : List Nat} {i : Nat} (hi : i < xs.length) :
    (xs.map fun n : Nat => (n : Rat)).getD i 0 = ((xs.getD i 0 : Nat) : Rat) := by
  rw [List.getD_eq_getElem _ 0 (by simpa using hi), List.getD_eq_getElem xs 0 hi]
  simp [List.getElem_map]

/-- C4 as amended: the grouped table is sorted strictly ascending by customer
id; `rank(method='first')` gives the earlier-positioned (hence
smaller-id) customer of a tie group the strictly lower rank; and when the
quartile binning succeeds, the first customer holding the minimal
frequency receives score 1 and the last customer holding the maximal
frequency receives score 4. -/
theorem c4_amended_fscore (rows : List Row) (scores : List Nat)
    (hok : fScores rows = Except.ok scores) :
    List.Sorted strLtP (rfmIds rows) ∧
    (∀ i j, i < j → j < (fCol rows).length →
      (fCol rows).getD i 0 = (fCol rows).getD j 0 →
      (ranksFirst (fCol rows)).getD i 0 < (ranksFirst (fCol rows)).getD j 0) ∧
    (∀ i, i < (fCol rows).length →
      (∀ x ∈ fCol rows, (fCol rows).getD i 0 ≤ x) →
      (∀ j, j < i → (fCol rows).getD j 0 ≠ (fCol rows).getD i 0) →
      scores.getD i 0 = 1) ∧
    (∀ i, i < (fCol rows).length →
      (∀ x ∈ fCol rows, x ≤ (fCol rows).getD i 0) →
      (∀ j, i < j → j < (fCol rows).length →
        (fCol rows).getD j 0 ≠ (fCol rows).getD i 0) →
      scores.getD i 0 = 4) := by
  have hok' : qcut ((ranksFirst (fCol rows)).map fun n : Nat => (n : Rat)) [1, 2, 3, 4] =
      Except.ok scores := hok
  obtain ⟨hlen, hsc⟩ := qcut_ok_iff.mp hok'
  refine ⟨?_, ?_, ?_, ?_⟩
  · have hnd : (rfmIds rows).Nodup :=
      ((List.perm_insertionSort strLeP _).nodup_iff).mpr (List.nodup_dedup _)
    have hsorted : List.Sorted strLeP (rfmIds rows) := List.sorted_insertionSort _ _
    exact (hsorted.and hnd).imp fun hab => strLtP_of_le_ne hab.1 hab.2
  · intro i j hij hj heq
    exact ranksFirst_lt_of_tie hij hj heq
  · intro i hi hmin hfirst
    have hrank1 : (ranksFirst (fCol rows)).getD i 0 = 1 := by
      rw [ranksFirst_getD hi, List.getD_eq_getElem (fCol rows) 0 hi]
      refine rank_formula_eq_one hi (fun x hx => ?_) (fun j hj => ?_)
      · rw [← List.getD_eq_getElem (fCol rows) 0 hi]
        exact hmin x hx
      · rw [← List.getD_eq_getElem (fCol rows) 0 hi]
        exact hfirst j hj
    have hleng : i < ((ranksFirst (fCol rows)).map fun n : Nat => (n : Rat)).length := by
      rw [List.length_map, ranksFirst_length]
      exact hi
    have hranki : i < (ranksFirst (fCol rows)).length := by
      rw [ranksFirst_length]
      exact hi
    have hval : ((ranksFirst (fCol rows)).map fun n : Nat => (n : Rat)).getD i 0 =
        (1 : Rat) := by
      rw [getD_map_natCast hranki, hrank1]
      norm_num
    have hmem : (1 : Rat) ∈ (ranksFirst (fCol rows)).map fun n : Nat => (n : Rat) := by
      rw [← hval, List.getD_eq_getElem _ 0 hleng]
      exact List.getElem_mem _
    have hminq : ∀ x ∈ (ranksFirst (fCol rows)).map fun n : Nat => (n : Rat),
        (1 : Rat) ≤ x := by
      intro x hx
      obtain ⟨r, hr, rfl⟩ := List.mem_map.mp hx
      exact_mod_cast ranksFirst_pos hr
    rw [hsc, getD_map_rat hleng, hval, qcutBin_eq_zero_of_min hmem hminq]
    rfl
  · intro i hi hmax hlast
    have hrankn : (ranksFirst (fCol rows)).getD i 0 = (fCol rows).length := by
      rw [ranksFirst_getD hi, List.getD_eq_getElem (fCol rows) 0 hi]
      refine rank_formula_eq_length hi (fun x hx => ?_) (fun j h1 h2 => ?_)
      · rw [← List.getD_eq_getElem (fCol rows) 0 hi]
        exact hmax x hx
      · rw [← List.getD_eq_getElem (fCol rows) 0 hi]
        exact hlast j h1 h2
    have hleng : i < ((ranksFirst (fCol rows)).map fun n : Nat => (n : Rat)).length := by
      rw [List.length_map, ranksFirst_length]
      exact hi
    have hranki : i < (ranksFirst (fCol rows)).length := by
      rw [ranksFirst_length]
      exact hi
    have hval : ((ranksFirst (fCol rows)).map fun n : Nat => (n : Rat)).getD i 0 =
        (((fCol rows).length : Nat) : Rat) := by
      rw [getD_map_natCast hranki, hrankn]
    have hmem : (((fCol rows).length : Nat) : Rat) ∈
        (ranksFirst (fCol rows)).map fun n : Nat => (n : Rat) := by
      rw [← hval, List.getD_eq_getElem _ 0 hleng]
      exact List.getElem_mem _
    have hmaxq : ∀ x ∈ (ranksFirst (fCol rows)).map fun n : Nat => (n : Rat),
        x ≤ (((fCol rows).length : Nat) : Rat) := by
      intro x hx
      obtain ⟨r, hr, rfl⟩ := List.mem_map.mp hx
      exact_mod_cast ranksFirst_le_length hr
    rw [hsc, getD_map_rat hleng, hval, qcutBin_eq_three_of_max hok' rfl hmem hmaxq]
    rfl

/-- Customers A, B, C, D in sorted order with frequencies 1, 1, 2, 3: A and B
tie at the minimal frequency, D holds the maximum. -/
def c4TieLedger : List Row :=
  [{ sampleRow with customerId := some "A", invoiceNo := some "A1" },
   { sampleRow with customerId := some "B", invoiceNo := some "B1" },
   { sampleRow with customerId := some "C", invoiceNo := some "C1" },
   { sampleRow with customerId := some "C", invoiceNo := some "C2" },
   { sampleRow with customerId := some "D", invoiceNo := some "D1" },
   { sampleRow with customerId := some "D", invoiceNo := some "D2" },
   { sampleRow with customerId := some "D", invoiceNo := some "D3" }]

/-- Witness for `c4_amended_fscore` on `c4TieLedger`. -/
theorem c4_amended_fscore_witness :
    List.Sorted strLtP (rfmIds c4TieLedger) ∧
    (ranksFirst (fCol c4TieLedger)).getD 0 0 < (ranksFirst (fCol c4TieLedger)).getD 1 0 ∧
    ([1, 2, 3, 4] : List Nat).getD 0 0 = 1 ∧
    ([1, 2, 3, 4] : List Nat).getD 3 0 = 4 := by
  have hlen4 : (fCol c4TieLedger).length = 4 := by rfl
  have h := c4_amended_fscore c4TieLedger [1, 2, 3, 4] (by rfl)
  refine ⟨h.1, ?_, ?_, ?_⟩
  · exact h.2.1 0 1 (by norm_num) (by rw [hlen4]; norm_num) (by rfl)
  · exact h.2.2.1 0 (by rw [hlen4]; norm_num) (by decide) (fun j hj => absurd hj (by omega))
  · exact h.2.2.2 3 (by rw [hlen4]; norm_num) (by decide)
      (fun j h1 h2 => absurd (by rw [hlen4] at h2; omega : j = 4) (by omega))

end RFMDash
